import Mathlib

/-!
Verification of the asset-hierarchy view-model of the `trace` repository.

The definitions in this file are shallow embeddings of the TypeScript
source:
* `src/components/AssetTable/buildFolderTree.ts` (`buildFolderTree`,
  `countAssets`, `hasAssets`),
* `src/components/AssetTable.tsx` (`processedAssets` pipeline),
* `src/components/AssetTable/AssetRow.tsx` (`isBackwardTransition`,
  `handleReworkSubmit`),
* `src/components/AssetTable/ReworkModal.tsx` (`handleSubmit`),
* the Dashboard page (`handleStatusUpdate`).

JavaScript string primitives (`split('/')`, `trim()`, `toLowerCase()`,
`includes`) are embedded as executable functions over `String.data` char
lists, following the ECMAScript semantics of those operations; machine
timestamps (`getTime()`) are embedded as `Int`.  JavaScript's in-place
`Array.prototype.sort` is embedded by `jsSortInPlace`, which returns both
the sort's return value and the final contents of its receiver array; the
source always applies it to a spread copy (`[...xs].sort(...)`), never to
the input array itself, which the state-threaded definitions below make
explicit.
-/

/-- Asset lifecycle status: the `"pending" | "received" | "implemented"`
string union of the source. -/
inductive Status where
  | pending
  | received
  | implemented
deriving DecidableEq, Repr

/-- The `Asset` row interface of `src/components/AssetTable/types.ts`
(shared types file).  `updated_at` is embedded as the integer timestamp
that `new Date(x).getTime()` yields on it. -/
structure Asset where
  id : String
  project_id : String
  name : String
  file_path : String
  folder : Option String
  status : Status
  assigned_to : Option String
  received_at : Option String
  implemented_at : Option String
  revision_count : Nat
  notes : Option String
  created_at : String
  updated_at : Int
deriving DecidableEq, Repr

/-- The `TreeNode` interface of the shared types file: a tagged union of
folder nodes (with a children array) and asset leaf nodes (whose
`children` array is always empty in the source and is therefore dropped,
and whose `asset` field is always populated). -/
inductive TreeNode where
  | folder (name : String) (path : String) (depth : Int) (children : List TreeNode)
  | asset (name : String) (path : String) (depth : Int) (a : Asset)
deriving Repr

namespace TreeNode

/-- `node.type === 'folder'`. -/
def isFolder : TreeNode → Bool
  | .folder _ _ _ _ => true
  | .asset _ _ _ _ => false

/-- The `path` field of a node. -/
def path : TreeNode → String
  | .folder _ p _ _ => p
  | .asset _ p _ _ => p

/-- The `children` array of a node (empty for asset leaves, as in the
source where asset nodes are created with `children: []`). -/
def children : TreeNode → List TreeNode
  | .folder _ _ _ ch => ch
  | .asset _ _ _ _ => []

end TreeNode

mutual
/-- `countAssets` of `buildFolderTree.ts`: 1 for an asset node, sum of the
children's counts for a folder node. -/
def countAssets : TreeNode → Nat
  | .asset _ _ _ _ => 1
  | .folder _ _ _ ch => countAssetsList ch

/-- The `reduce`-over-children sum inside `countAssets`. -/
def countAssetsList : List TreeNode → Nat
  | [] => 0
  | c :: cs => countAssets c + countAssetsList cs
end

mutual
/-- `hasAssets` of `buildFolderTree.ts`: true for an asset node,
`children.some(hasAssets)` for a folder node. -/
def hasAssets : TreeNode → Bool
  | .asset _ _ _ _ => true
  | .folder _ _ _ ch => hasAssetsList ch

/-- The `some`-over-children disjunction inside `hasAssets`. -/
def hasAssetsList : List TreeNode → Bool
  | [] => false
  | c :: cs => hasAssets c || hasAssetsList cs
end

/-- JavaScript `s.split(sep)` on char lists: splits at every separator
occurrence, keeping empty pieces (`"a//b"` ↦ `["a", "", "b"]`,
`""` ↦ `[""]`). -/
def splitOnChar (sep : Char) : List Char → List (List Char)
  | [] => [[]]
  | c :: cs =>
    match splitOnChar sep cs with
    | [] => if c = sep then [[], [c]] else [[c]]
    | piece :: rest =>
      if c = sep then [] :: piece :: rest else (c :: piece) :: rest

/-- JavaScript `s.split('/')`. -/
def jsSplitSlash (s : String) : List String :=
  (splitOnChar '/' s.data).map String.mk

/-- The folder-segment computation of `buildFolderTree.ts`:
`asset.folder.split('/').filter(part => part.length > 0)`, with the
falsy-folder branch (`!asset.folder`, i.e. `null` or `""`) yielding no
segments. -/
def splitParts : Option String → List String
  | none => []
  | some s => (jsSplitSlash s).filter (fun part => part.length > 0)

/-- The path accumulator of `buildFolderTree.ts`:
`currentPath ? currentPath + '/' + folderName : folderName`. -/
def joinPath (cur p : String) : String :=
  if cur = "" then p else cur ++ "/" ++ p

/-- One iteration of the per-asset loop body of `buildFolderTree.ts`: walk
the remaining folder segments from the current children array, find the
first folder child with a matching name or append a fresh one, and place
the asset node once the segments are exhausted.  `curPath`/`depth` mirror
the loop's `currentPath` accumulator and segment index. -/
def insertAsset (a : Asset) : List String → String → Int → List TreeNode → List TreeNode
  | [], _, depth, children => children ++ [TreeNode.asset a.name a.file_path depth a]
  | p :: rest, curPath, depth, [] =>
      [TreeNode.folder p (joinPath curPath p) depth
        (insertAsset a rest (joinPath curPath p) (depth + 1) [])]
  | p :: rest, curPath, depth, TreeNode.folder n np nd nch :: cs =>
      if n = p then
        TreeNode.folder n np nd (insertAsset a rest (joinPath curPath p) (depth + 1) nch) :: cs
      else
        TreeNode.folder n np nd nch :: insertAsset a (p :: rest) curPath depth cs
  | p :: rest, curPath, depth, TreeNode.asset n np nd na :: cs =>
      TreeNode.asset n np nd na :: insertAsset a (p :: rest) curPath depth cs
termination_by parts _ _ children => (parts.length, children.length)

/-- The sort key of `buildFolderTree.ts`: `a.folder || ''`. -/
def folderKey (a : Asset) : String := a.folder.getD ""

/-- JavaScript's in-place `Array.prototype.sort(cmp)`, embedded as a
function returning `(return value, final contents of the receiver)`; both
are the sorted contents, since `sort` sorts its receiver and returns it. -/
def jsSortInPlace (le : α → α → Bool) (receiver : List α) : List α × List α :=
  let s := receiver.mergeSort le
  (s, s)

/-- `buildFolderTree` of `buildFolderTree.ts`, threaded through the state
of its input array: the source copies the input (`[...assets]`) and sorts
the copy in place, so the second component — the final contents of the
caller's `assets` array — is the untouched input. -/
def buildFolderTreeRun (assets : List Asset) : TreeNode × List Asset :=
  let copy := assets
  let (sortedAssets, _copyAfter) := jsSortInPlace (fun a b => folderKey a ≤ folderKey b) copy
  (TreeNode.folder "root" "" (-1)
    (sortedAssets.foldl (fun ch a => insertAsset a (splitParts a.folder) "" 0 ch) []),
   assets)

/-- `buildFolderTree`: the tree returned by the source function. -/
def buildFolderTree (assets : List Asset) : TreeNode :=
  (buildFolderTreeRun assets).1

/-! ### Count / reachability lemmas -/

theorem countAssetsList_append (l1 l2 : List TreeNode) :
    countAssetsList (l1 ++ l2) = countAssetsList l1 + countAssetsList l2 := by
  induction l1 with
  | nil => simp [countAssetsList]
  | cons c cs ih => simp [countAssetsList, ih]; omega

theorem countAssetsList_insertAsset (a : Asset) (parts : List String) (cur : String)
    (d : Int) (ch : List TreeNode) :
    countAssetsList (insertAsset a parts cur d ch) = countAssetsList ch + 1 := by
  induction parts, cur, d, ch using insertAsset.induct a with
  | case1 _ depth children =>
    simp [insertAsset, countAssetsList_append, countAssetsList, countAssets]
  | case2 p rest curPath depth ih =>
    simp [insertAsset, countAssetsList, countAssets, ih]
  | case3 rest curPath depth n np nd nch cs ih =>
    simp [insertAsset, countAssetsList, countAssets, ih]; omega
  | case4 p rest curPath depth n np nd nch cs h ih =>
    simp [insertAsset, h, countAssetsList, countAssets, ih]; omega
  | case5 p rest curPath depth n np nd na cs ih =>
    simp [insertAsset, countAssetsList, countAssets, ih]; omega

theorem countAssetsList_foldl (l : List Asset) (ch : List TreeNode) :
    countAssetsList (l.foldl (fun ch a => insertAsset a (splitParts a.folder) "" 0 ch) ch)
      = countAssetsList ch + l.length := by
  induction l generalizing ch with
  | nil => simp
  | cons a l ih =>
    simp only [List.foldl_cons, ih, countAssetsList_insertAsset, List.length_cons]
    omega

/-- **C1** — Tree completeness: the tree built by `buildFolderTree`
contains exactly one asset leaf per input asset, i.e. `countAssets`
of the returned root equals the length of the input list. -/
theorem countAssets_buildFolderTree (assets : List Asset) :
    countAssets (buildFolderTree assets) = assets.length := by
  simp only [buildFolderTree, buildFolderTreeRun, jsSortInPlace, countAssets,
    countAssetsList_foldl, countAssetsList, Nat.zero_add]
  exact (List.mergeSort_perm assets _).length_eq

mutual
theorem hasAssets_eq_decide_count (t : TreeNode) :
    hasAssets t = decide (0 < countAssets t) := by
  match t with
  | .asset n p d a => simp [hasAssets, countAssets]
  | .folder n p d ch =>
    simp only [hasAssets, countAssets]
    exact hasAssetsList_eq_decide_count ch

theorem hasAssetsList_eq_decide_count (l : List TreeNode) :
    hasAssetsList l = decide (0 < countAssetsList l) := by
  match l with
  | [] => simp [hasAssetsList, countAssetsList]
  | c :: cs =>
    simp only [hasAssetsList, countAssetsList, hasAssets_eq_decide_count c,
      hasAssetsList_eq_decide_count cs]
    rcases Nat.eq_zero_or_pos (countAssets c) with h1 | h1 <;>
      rcases Nat.eq_zero_or_pos (countAssetsList cs) with h2 | h2 <;>
        simp [h1, h2, Nat.pos_of_ne_zero, Nat.pos_iff_ne_zero]
end

/-- **C10** — The boolean reachability check `hasAssets` agrees with the
recursive count `countAssets`: `hasAssets node` is true iff
`countAssets node > 0`, for every `TreeNode`. -/
theorem hasAssets_iff_countAssets_pos (t : TreeNode) :
    hasAssets t = true ↔ countAssets t > 0 := by
  rw [hasAssets_eq_decide_count]
  simp only [decide_eq_true_eq, gt_iff_lt]

/-! ### Reachable nodes and the no-empty-folder invariant -/

mutual
/-- All nodes of the subtree rooted at a node (the node itself included),
i.e. the nodes a recursive walk from it visits. -/
def reachableNodes : TreeNode → List TreeNode
  | .folder n p d ch => TreeNode.folder n p d ch :: reachableNodesList ch
  | .asset n p d a => [TreeNode.asset n p d a]

/-- Reachable nodes of a children array. -/
def reachableNodesList : List TreeNode → List TreeNode
  | [] => []
  | c :: cs => reachableNodes c ++ reachableNodesList cs
end

mutual
/-- Every folder node of this subtree (the subtree's root included, when
it is a folder) has an asset descendant. -/
def foldersNonEmpty : TreeNode → Bool
  | .asset _ _ _ _ => true
  | .folder _ _ _ ch => hasAssetsList ch && foldersNonEmptyList ch

/-- `foldersNonEmpty` over a children array. -/
def foldersNonEmptyList : List TreeNode → Bool
  | [] => true
  | c :: cs => foldersNonEmpty c && foldersNonEmptyList cs
end

theorem foldersNonEmptyList_append (l1 l2 : List TreeNode) :
    foldersNonEmptyList (l1 ++ l2) = (foldersNonEmptyList l1 && foldersNonEmptyList l2) := by
  induction l1 with
  | nil => simp [foldersNonEmptyList]
  | cons c cs ih => simp [foldersNonEmptyList, ih, Bool.and_assoc]

theorem hasAssetsList_insertAsset (a : Asset) (parts : List String) (cur : String)
    (d : Int) (ch : List TreeNode) :
    hasAssetsList (insertAsset a parts cur d ch) = true := by
  rw [hasAssetsList_eq_decide_count, countAssetsList_insertAsset]
  simp

theorem foldersNonEmptyList_insertAsset (a : Asset) (parts : List String) (cur : String)
    (d : Int) (ch : List TreeNode) (h : foldersNonEmptyList ch = true) :
    foldersNonEmptyList (insertAsset a parts cur d ch) = true := by
  induction parts, cur, d, ch using insertAsset.induct a with
  | case1 _ depth children =>
    simp only [insertAsset, foldersNonEmptyList_append, h, foldersNonEmptyList,
      foldersNonEmpty, Bool.and_true, Bool.true_and]
  | case2 p rest curPath depth ih =>
    simp only [insertAsset, foldersNonEmptyList, foldersNonEmpty, Bool.and_true,
      hasAssetsList_insertAsset, Bool.true_and]
    exact ih rfl
  | case3 rest curPath depth n np nd nch cs ih =>
    simp only [foldersNonEmptyList, foldersNonEmpty, Bool.and_eq_true] at h
    simp only [insertAsset, if_pos rfl, foldersNonEmptyList, foldersNonEmpty,
      hasAssetsList_insertAsset, Bool.true_and, Bool.and_eq_true]
    exact ⟨ih h.1.2, h.2⟩
  | case4 p rest curPath depth n np nd nch cs hne ih =>
    simp only [foldersNonEmptyList, Bool.and_eq_true] at h
    simp only [insertAsset, if_neg hne, foldersNonEmptyList, Bool.and_eq_true]
    exact ⟨h.1, ih h.2⟩
  | case5 p rest curPath depth n np nd na cs ih =>
    simp only [foldersNonEmptyList, foldersNonEmpty, Bool.true_and] at h
    simp only [insertAsset, foldersNonEmptyList, foldersNonEmpty, Bool.true_and]
    exact ih h

theorem foldersNonEmptyList_foldl (l : List Asset) (ch : List TreeNode)
    (h : foldersNonEmptyList ch = true) :
    foldersNonEmptyList
      (l.foldl (fun ch a => insertAsset a (splitParts a.folder) "" 0 ch) ch) = true := by
  induction l generalizing ch with
  | nil => simpa using h
  | cons a l ih =>
    simp only [List.foldl_cons]
    exact ih _ (foldersNonEmptyList_insertAsset _ _ _ _ _ h)

mutual
theorem reach_folder_hasAssets (t : TreeNode) (hg : foldersNonEmpty t = true) :
    ∀ s ∈ reachableNodes t, s.isFolder = true → hasAssets s = true := by
  match t with
  | .asset n p d a =>
    intro s hs
    simp only [reachableNodes, List.mem_singleton] at hs
    subst hs
    simp [TreeNode.isFolder]
  | .folder n p d ch =>
    intro s hs hf
    simp only [foldersNonEmpty, Bool.and_eq_true] at hg
    simp only [reachableNodes, List.mem_cons] at hs
    rcases hs with rfl | hs
    · simpa [hasAssets] using hg.1
    · exact reachList_folder_hasAssets ch hg.2 s hs hf

theorem reachList_folder_hasAssets (l : List TreeNode) (hg : foldersNonEmptyList l = true) :
    ∀ s ∈ reachableNodesList l, s.isFolder = true → hasAssets s = true := by
  match l with
  | [] => intro s hs; simp [reachableNodesList] at hs
  | c :: cs =>
    intro s hs hf
    simp only [foldersNonEmptyList, Bool.and_eq_true] at hg
    simp only [reachableNodesList, List.mem_append] at hs
    rcases hs with hs | hs
    · exact reach_folder_hasAssets c hg.1 s hs hf
    · exact reachList_folder_hasAssets cs hg.2 s hs hf
end

/-- **C6, counterexample** — the claim quantifies over every FolderNode
reachable from the returned root; on the empty input list the returned
root itself is a reachable FolderNode with `hasAssets` false, so "every
FolderNode reachable from the returned root satisfies `hasAssets`" fails
at the input `[]`. -/
theorem buildFolderTree_empty_root_violates_hasAssets :
    buildFolderTree [] ∈ reachableNodes (buildFolderTree []) ∧
      (buildFolderTree []).isFolder = true ∧ hasAssets (buildFolderTree []) = false := by
  have hb : buildFolderTree [] = TreeNode.folder "root" "" (-1) [] := by
    simp [buildFolderTree, buildFolderTreeRun, jsSortInPlace]
  rw [hb]
  refine ⟨?_, rfl, rfl⟩
  simp [reachableNodes, reachableNodesList]

/-- **C6, amended** — every FolderNode strictly below the synthetic root
(that is, reachable from the root's children array) of a tree returned by
`buildFolderTree` has at least one asset-leaf descendant: `hasAssets` of
it is true.  Only the synthetic root itself can be an empty folder. -/
theorem buildFolderTree_folders_have_assets (assets : List Asset) (t : TreeNode)
    (ht : t ∈ reachableNodesList (buildFolderTree assets).children)
    (hf : t.isFolder = true) : hasAssets t = true := by
  have hg : foldersNonEmptyList (buildFolderTree assets).children = true := by
    simp only [buildFolderTree, buildFolderTreeRun, jsSortInPlace, TreeNode.children]
    exact foldersNonEmptyList_foldl _ [] rfl
  exact reachList_folder_hasAssets _ hg t ht hf

/-- A concrete imported asset: file `d/u.png` inside folder `d`. -/
def demoAsset : Asset :=
  { id := "a-1", project_id := "p-1", name := "u.png", file_path := "d/u.png",
    folder := some "d", status := .pending, assigned_to := none, received_at := none,
    implemented_at := none, revision_count := 0, notes := none, created_at := "",
    updated_at := 0 }

theorem buildFolderTree_demoAsset :
    buildFolderTree [demoAsset] =
      TreeNode.folder "root" "" (-1)
        [TreeNode.folder "d" "d" 0 [TreeNode.asset "u.png" "d/u.png" 1 demoAsset]] := by
  have hsplit : splitParts (some "d") = ["d"] := by decide
  simp [buildFolderTree, buildFolderTreeRun, jsSortInPlace, demoAsset, hsplit,
    insertAsset, joinPath]

/-- **C6, witness** — instantiating the amended theorem at the singleton
input `[demoAsset]` and its folder node `d`. -/
theorem buildFolderTree_folders_have_assets_witness :
    (TreeNode.folder "d" "d" 0 [TreeNode.asset "u.png" "d/u.png" 1 demoAsset]) ∈
        reachableNodesList (buildFolderTree [demoAsset]).children ∧
      hasAssets (TreeNode.folder "d" "d" 0
        [TreeNode.asset "u.png" "d/u.png" 1 demoAsset]) = true := by
  have hmem : (TreeNode.folder "d" "d" 0 [TreeNode.asset "u.png" "d/u.png" 1 demoAsset]) ∈
      reachableNodesList (buildFolderTree [demoAsset]).children := by
    rw [buildFolderTree_demoAsset]
    simp [TreeNode.children, reachableNodesList, reachableNodes]
  exact ⟨hmem, buildFolderTree_folders_have_assets [demoAsset] _ hmem rfl⟩

/-! ### Structural well-formedness of built children arrays

In a children array at accumulated path `cur`, every folder child's stored
`path` is `joinPath cur name` — exactly how `buildFolderTree.ts` computes
`currentPath` when it creates a folder — and its own children are
well-formed at that path. -/

mutual
def wfNode (cur : String) : TreeNode → Bool
  | .asset _ _ _ _ => true
  | .folder n fp _ ch => (fp = joinPath cur n) && wfList fp ch

def wfList (cur : String) : List TreeNode → Bool
  | [] => true
  | c :: cs => wfNode cur c && wfList cur cs
end

theorem wfList_append (cur : String) (l1 l2 : List TreeNode) :
    wfList cur (l1 ++ l2) = (wfList cur l1 && wfList cur l2) := by
  induction l1 with
  | nil => simp [wfList]
  | cons c cs ih => simp [wfList, ih, Bool.and_assoc]

theorem wfList_insertAsset (a : Asset) (parts : List String) (cur : String)
    (d : Int) (ch : List TreeNode) (h : wfList cur ch = true) :
    wfList cur (insertAsset a parts cur d ch) = true := by
  induction parts, cur, d, ch using insertAsset.induct a with
  | case1 _ depth children =>
    simp only [insertAsset, wfList_append, h, wfList, wfNode, Bool.and_true, Bool.true_and]
  | case2 p rest curPath depth ih =>
    simp only [insertAsset, wfList, wfNode, Bool.and_true, decide_eq_true_eq]
    refine Bool.and_eq_true_iff.mpr ⟨by simp, ?_⟩
    exact ih rfl
  | case3 rest curPath depth n np nd nch cs ih =>
    simp only [wfList, wfNode, Bool.and_eq_true, decide_eq_true_eq] at h
    obtain ⟨⟨hnp, hwf⟩, hcs⟩ := h
    simp only [insertAsset, if_pos rfl, wfList, wfNode, Bool.and_eq_true, decide_eq_true_eq]
    refine ⟨⟨hnp, ?_⟩, hcs⟩
    rw [hnp] at hwf ⊢
    exact ih hwf
  | case4 p rest curPath depth n np nd nch cs hne ih =>
    simp only [wfList, Bool.and_eq_true] at h
    simp only [insertAsset, if_neg hne, wfList, Bool.and_eq_true]
    exact ⟨h.1, ih h.2⟩
  | case5 p rest curPath depth n np nd na cs ih =>
    simp only [wfList, wfNode, Bool.true_and] at h
    simp only [insertAsset, wfList, wfNode, Bool.true_and]
    exact ih h

theorem wfList_foldl (l : List Asset) (ch : List TreeNode) (h : wfList "" ch = true) :
    wfList "" (l.foldl (fun ch a => insertAsset a (splitParts a.folder) "" 0 ch) ch) = true := by
  induction l generalizing ch with
  | nil => simpa using h
  | cons a l ih =>
    simp only [List.foldl_cons]
    exact ih _ (wfList_insertAsset _ _ _ _ _ h)

/-! ### Item entries: each asset leaf with its ancestor folder paths -/

/-- An asset leaf of the tree together with the `path`s of its ancestor
FolderNodes (synthetic root excluded) and its own `path` field. -/
structure ItemEntry where
  ancestors : List String
  nodePath : String
  item : Asset
deriving DecidableEq, Repr

mutual
/-- All item entries of a subtree, accumulating the folder paths walked
through in `anc`. -/
def itemEntries (anc : List String) : TreeNode → List ItemEntry
  | .asset _ p _ a => [⟨anc, p, a⟩]
  | .folder _ fp _ ch => itemEntriesList (anc ++ [fp]) ch

/-- `itemEntries` over a children array. -/
def itemEntriesList (anc : List String) : List TreeNode → List ItemEntry
  | [] => []
  | c :: cs => itemEntries anc c ++ itemEntriesList anc cs
end

/-- Item entries of a built tree: entries of the root's children, with the
synthetic root (path `""`) not counted as an ancestor. -/
def treeItemEntries (t : TreeNode) : List ItemEntry :=
  itemEntriesList [] t.children

/-- The chain of accumulated folder paths that walking segments `parts`
from accumulated path `cur` produces: the stored `path`s of the folders
the walk visits, outermost first. -/
def ancChain (cur : String) : List String → List String
  | [] => []
  | p :: rest => joinPath cur p :: ancChain (joinPath cur p) rest

theorem itemEntriesList_append (anc : List String) (l1 l2 : List TreeNode) :
    itemEntriesList anc (l1 ++ l2) = itemEntriesList anc l1 ++ itemEntriesList anc l2 := by
  induction l1 with
  | nil => simp [itemEntriesList]
  | cons c cs ih => simp [itemEntriesList, ih]

theorem itemEntriesList_insertAsset (a : Asset) (parts : List String) (cur : String)
    (d : Int) (ch : List TreeNode) :
    wfList cur ch = true → ∀ anc : List String,
      (itemEntriesList anc (insertAsset a parts cur d ch) : Multiset ItemEntry) =
        (itemEntriesList anc ch : Multiset ItemEntry)
          + {⟨anc ++ ancChain cur parts, a.file_path, a⟩} := by
  induction parts, cur, d, ch using insertAsset.induct a with
  | case1 _ depth children =>
    intro _ anc
    simp only [insertAsset, itemEntriesList_append, itemEntriesList, itemEntries, ancChain,
      List.append_nil]
    rw [← Multiset.coe_singleton, Multiset.coe_add]
  | case2 p rest curPath depth ih =>
    intro _ anc
    simp only [insertAsset, itemEntriesList, itemEntries, List.append_nil]
    rw [ih rfl (anc ++ [joinPath curPath p])]
    simp [itemEntriesList, ancChain]
  | case3 rest curPath depth n np nd nch cs ih =>
    intro h anc
    simp only [wfList, wfNode, Bool.and_eq_true, decide_eq_true_eq] at h
    obtain ⟨⟨hnp, hwf⟩, hcs⟩ := h
    simp only [insertAsset, if_pos rfl, itemEntriesList, itemEntries]
    rw [← Multiset.coe_add, ← Multiset.coe_add]
    rw [hnp] at hwf
    rw [ih hwf (anc ++ [np])]
    simp only [ancChain, ← hnp]
    rw [List.append_cons anc np (ancChain np rest)]
    abel
  | case4 p rest curPath depth n np nd nch cs hne ih =>
    intro h anc
    simp only [wfList, Bool.and_eq_true] at h
    simp only [insertAsset, if_neg hne, itemEntriesList]
    rw [← Multiset.coe_add, ← Multiset.coe_add]
    rw [ih h.2 anc]
    abel
  | case5 p rest curPath depth n np nd na cs ih =>
    intro h anc
    simp only [wfList, wfNode, Bool.true_and] at h
    simp only [insertAsset, itemEntriesList]
    rw [← Multiset.coe_add, ← Multiset.coe_add]
    rw [ih h anc]
    abel

/-- The entry contributed by one asset: placed under the folder chain of
its (filtered) folder segments. -/
def entryOf (a : Asset) : ItemEntry :=
  ⟨ancChain "" (splitParts a.folder), a.file_path, a⟩

theorem itemEntriesList_foldl (l : List Asset) (ch : List TreeNode)
    (h : wfList "" ch = true) :
    (itemEntriesList [] (l.foldl (fun ch a => insertAsset a (splitParts a.folder) "" 0 ch) ch) :
        Multiset ItemEntry) =
      (itemEntriesList [] ch : Multiset ItemEntry) + (l.map entryOf : Multiset ItemEntry) := by
  induction l generalizing ch with
  | nil => simp
  | cons a l ih =>
    simp only [List.foldl_cons]
    rw [ih _ (wfList_insertAsset _ _ _ _ _ h)]
    rw [itemEntriesList_insertAsset a _ _ _ _ h []]
    simp only [List.nil_append, entryOf, List.map_cons]
    rw [← Multiset.cons_coe, ← Multiset.singleton_add]
    abel

/-- The item-entry multiset of a built tree is the input list's image
under `entryOf`, up to the traversal sort's permutation. -/
theorem treeItemEntries_buildFolderTree (assets : List Asset) :
    (treeItemEntries (buildFolderTree assets) : Multiset ItemEntry) =
      (assets.map entryOf : Multiset ItemEntry) := by
  simp only [treeItemEntries, buildFolderTree, buildFolderTreeRun, jsSortInPlace,
    TreeNode.children]
  rw [itemEntriesList_foldl _ [] rfl]
  simp only [itemEntriesList, Multiset.coe_nil, zero_add]
  rw [Multiset.coe_eq_coe]
  exact (List.mergeSort_perm assets _).map entryOf

/-! ### Path algebra: accumulated joins are slash-prefixes -/

/-- `s` followed by a slash is a prefix of `t`, and `t` is strictly
longer: the "proper slash-prefix" relation between folder paths. -/
def ProperSlashPrefix (s t : String) : Prop :=
  ∃ r : String, t = s ++ "/" ++ r

/-- The accumulated path after walking all segments of `parts` from
`cur` — the `currentPath` value at the end of the folder loop. -/
def fullJoin (cur : String) (parts : List String) : String :=
  parts.foldl joinPath cur

theorem length_joinPath_pos (cur p : String) (hp : 0 < p.length) :
    0 < (joinPath cur p).length := by
  unfold joinPath
  split
  · exact hp
  · simp [String.length_append]
    omega

theorem joinPath_of_ne (cur p : String) (h : cur ≠ "") :
    joinPath cur p = cur ++ "/" ++ p := by
  simp [joinPath, h]

theorem ne_empty_of_length_pos (s : String) (h : 0 < s.length) : s ≠ "" := by
  intro he
  subst he
  simp at h

theorem fullJoin_extends (parts : List String) (cur : String) (hcur : 0 < cur.length) :
    fullJoin cur parts = cur ∨ ProperSlashPrefix cur (fullJoin cur parts) := by
  induction parts generalizing cur with
  | nil => exact Or.inl rfl
  | cons p rest ih =>
    have hc : joinPath cur p = cur ++ "/" ++ p :=
      joinPath_of_ne cur p (ne_empty_of_length_pos cur hcur)
    have hlen : 0 < (joinPath cur p).length := by
      rw [hc]
      simp [String.length_append]
      omega
    rcases ih (joinPath cur p) hlen with h | h
    · refine Or.inr ⟨p, ?_⟩
      simp only [fullJoin, List.foldl_cons] at h ⊢
      rw [h, hc]
    · obtain ⟨r, hr⟩ := h
      refine Or.inr ⟨p ++ "/" ++ r, ?_⟩
      simp only [fullJoin, List.foldl_cons] at hr ⊢
      rw [hr, hc]
      simp only [String.append_assoc]

theorem ancChain_spec (parts : List String) (cur : String)
    (hparts : ∀ p ∈ parts, 0 < p.length) :
    ∀ q ∈ ancChain cur parts,
      0 < q.length ∧ (q = fullJoin cur parts ∨ ProperSlashPrefix q (fullJoin cur parts)) := by
  induction parts generalizing cur with
  | nil => intro q hq; simp [ancChain] at hq
  | cons p rest ih =>
    intro q hq
    have hp : 0 < p.length := hparts p (List.mem_cons_self p rest)
    simp only [ancChain, List.mem_cons] at hq
    have hfull : fullJoin cur (p :: rest) = fullJoin (joinPath cur p) rest := by
      simp [fullJoin]
    rcases hq with rfl | hq
    · refine ⟨length_joinPath_pos cur p hp, ?_⟩
      rw [hfull]
      rcases fullJoin_extends rest (joinPath cur p) (length_joinPath_pos cur p hp) with
        h | h
      · exact Or.inl h.symm
      · exact Or.inr h
    · have := ih (joinPath cur p) (fun x hx => hparts x (List.mem_cons_of_mem p hx)) q hq
      rw [hfull]
      exact this

theorem splitParts_pos (f : Option String) : ∀ p ∈ splitParts f, 0 < p.length := by
  intro p hp
  cases f with
  | none => simp [splitParts] at hp
  | some s =>
    simp only [splitParts, List.mem_filter, decide_eq_true_eq] at hp
    exact hp.2

/-! ### C5: path identity -/

theorem mem_treeItemEntries_buildFolderTree (assets : List Asset) (e : ItemEntry)
    (he : e ∈ treeItemEntries (buildFolderTree assets)) :
    ∃ a ∈ assets, e = entryOf a := by
  have hm : e ∈ (treeItemEntries (buildFolderTree assets) : Multiset ItemEntry) := by
    simpa using he
  rw [treeItemEntries_buildFolderTree] at hm
  simp only [Multiset.mem_coe, List.mem_map] at hm
  obtain ⟨a, ha, rfl⟩ := hm
  exact ⟨a, ha, rfl⟩

/-- The path-identity property exactly as claimed: every item entry's node
path equals its asset's `file_path`, and every ancestor folder path is a
proper slash-prefix of the node path. -/
def PathIdentityClaim (assets : List Asset) : Prop :=
  ∀ e ∈ treeItemEntries (buildFolderTree assets),
    e.nodePath = e.item.file_path ∧ ∀ fp ∈ e.ancestors, ProperSlashPrefix fp e.nodePath

/-- An asset whose `folder` field is unrelated to its `file_path`: the
builder places it by `folder`, but stores `file_path` as the node path. -/
def strayAsset : Asset :=
  { id := "a-2", project_id := "p-1", name := "u", file_path := "u",
    folder := some "d", status := .pending, assigned_to := none, received_at := none,
    implemented_at := none, revision_count := 0, notes := none, created_at := "",
    updated_at := 0 }

theorem buildFolderTree_strayAsset :
    buildFolderTree [strayAsset] =
      TreeNode.folder "root" "" (-1)
        [TreeNode.folder "d" "d" 0 [TreeNode.asset "u" "u" 1 strayAsset]] := by
  have hsplit : splitParts (some "d") = ["d"] := by decide
  simp [buildFolderTree, buildFolderTreeRun, jsSortInPlace, strayAsset, hsplit,
    insertAsset, joinPath]

/-- **C5, counterexample** — for the single-asset list whose asset has
`folder = "d"` but `file_path = "u"`, the built tree's one item entry has
ancestor folder path `"d"`, which is not a proper slash-prefix of the
node path `"u"`; the claim as stated fails on this input. -/
theorem pathIdentityClaim_fails_on_strayAsset : ¬ PathIdentityClaim [strayAsset] := by
  intro hcl
  have hmem : (⟨["d"], "u", strayAsset⟩ : ItemEntry) ∈
      treeItemEntries (buildFolderTree [strayAsset]) := by
    rw [buildFolderTree_strayAsset]
    simp [treeItemEntries, TreeNode.children, itemEntriesList, itemEntries]
  have h := (hcl _ hmem).2 "d" (by simp)
  obtain ⟨r, hr⟩ := h
  have hl : ("u" : String).length = ("d" ++ "/" ++ r).length := by rw [← hr]
  rw [String.length_append, String.length_append] at hl
  have h1 : ("u" : String).length = 1 := by decide
  have h2 : ("d" : String).length = 1 := by decide
  have h3 : ("/" : String).length = 1 := by decide
  omega

/-- **C5, amended** — for every input list and every item entry of the
built tree, the entry's node path equals its asset's `file_path`
unconditionally; and whenever the asset's joined folder segments form a
proper slash-prefix of its `file_path` (as importer-produced assets
satisfy, `folder` being the substring of `file_path` before its last
slash), every ancestor FolderNode path is a proper slash-prefix of the
node path. -/
theorem buildFolderTree_path_identity (assets : List Asset) (e : ItemEntry)
    (he : e ∈ treeItemEntries (buildFolderTree assets)) :
    e.nodePath = e.item.file_path ∧
      (ProperSlashPrefix (fullJoin "" (splitParts e.item.folder)) e.item.file_path →
        ∀ fp ∈ e.ancestors, ProperSlashPrefix fp e.nodePath) := by
  obtain ⟨a, _, rfl⟩ := mem_treeItemEntries_buildFolderTree assets e he
  refine ⟨rfl, ?_⟩
  intro hcoh fp hfp
  simp only [entryOf] at hfp hcoh ⊢
  have hspec := ancChain_spec (splitParts a.folder) "" (splitParts_pos a.folder) fp hfp
  obtain ⟨r, hr⟩ := hcoh
  rcases hspec.2 with heq | ⟨r2, hr2⟩
  · exact ⟨r, by rw [hr, heq]⟩
  · refine ⟨r2 ++ "/" ++ r, ?_⟩
    rw [hr, hr2]
    simp only [String.append_assoc]

/-- **C5, witness** — the amended theorem applied to the singleton list
`[demoAsset]` (`folder = "d"`, `file_path = "d/u.png"`): the one entry has
node path `d/u.png`, equal to the asset's `file_path`, and its one
ancestor folder path `d` is a proper slash-prefix of it. -/
theorem buildFolderTree_path_identity_witness :
    (⟨["d"], "d/u.png", demoAsset⟩ : ItemEntry) ∈
        treeItemEntries (buildFolderTree [demoAsset]) ∧
      ("d/u.png" : String) = demoAsset.file_path ∧
        ∀ fp ∈ (["d"] : List String), ProperSlashPrefix fp "d/u.png" := by
  have hmem : (⟨["d"], "d/u.png", demoAsset⟩ : ItemEntry) ∈
      treeItemEntries (buildFolderTree [demoAsset]) := by
    rw [buildFolderTree_demoAsset]
    simp [treeItemEntries, TreeNode.children, itemEntriesList, itemEntries]
  have h := buildFolderTree_path_identity [demoAsset] ⟨["d"], "d/u.png", demoAsset⟩ hmem
  exact ⟨hmem, h.1, h.2 ⟨"u.png", by decide⟩⟩

/-! ### C7: tree shape is independent of input order -/

mutual
/-- The `path` fields of all folder nodes of a subtree. -/
def folderPathsNode : TreeNode → List String
  | .asset _ _ _ _ => []
  | .folder _ fp _ ch => fp :: folderPathsList ch

/-- `folderPathsNode` over a children array. -/
def folderPathsList : List TreeNode → List String
  | [] => []
  | c :: cs => folderPathsNode c ++ folderPathsList cs
end

/-- Folder paths of a built tree, synthetic root (path `""`) excluded. -/
def treeFolderPaths (t : TreeNode) : List String :=
  folderPathsList t.children

theorem folderPathsList_append (l1 l2 : List TreeNode) :
    folderPathsList (l1 ++ l2) = folderPathsList l1 ++ folderPathsList l2 := by
  induction l1 with
  | nil => simp [folderPathsList]
  | cons c cs ih => simp [folderPathsList, ih]

theorem mem_folderPathsList_insertAsset (a : Asset) (parts : List String) (cur : String)
    (d : Int) (ch : List TreeNode) :
    wfList cur ch = true → ∀ q : String,
      (q ∈ folderPathsList (insertAsset a parts cur d ch) ↔
        q ∈ folderPathsList ch ∨ q ∈ ancChain cur parts) := by
  induction parts, cur, d, ch using insertAsset.induct a with
  | case1 _ depth children =>
    intro _ q
    simp [insertAsset, folderPathsList_append, folderPathsList, folderPathsNode, ancChain]
  | case2 p rest curPath depth ih =>
    intro _ q
    simp only [insertAsset, folderPathsList, folderPathsNode, List.append_nil,
      List.mem_cons, ancChain, List.not_mem_nil, false_or]
    rw [ih rfl q]
    simp [folderPathsList]
  | case3 rest curPath depth n np nd nch cs ih =>
    intro h q
    simp only [wfList, wfNode, Bool.and_eq_true, decide_eq_true_eq] at h
    obtain ⟨⟨hnp, hwf⟩, hcs⟩ := h
    rw [hnp] at hwf
    simp only [insertAsset, if_pos rfl, folderPathsList, folderPathsNode, List.cons_append,
      List.mem_cons, List.mem_append, ancChain]
    rw [ih hwf q, hnp]
    tauto
  | case4 p rest curPath depth n np nd nch cs hne ih =>
    intro h q
    simp only [wfList, Bool.and_eq_true] at h
    simp only [insertAsset, if_neg hne, folderPathsList, List.mem_append]
    rw [ih h.2 q]
    tauto
  | case5 p rest curPath depth n np nd na cs ih =>
    intro h q
    simp only [wfList, wfNode, Bool.true_and] at h
    simp only [insertAsset, folderPathsList, folderPathsNode, List.nil_append]
    exact ih h q

theorem mem_folderPathsList_foldl (l : List Asset) (ch : List TreeNode)
    (h : wfList "" ch = true) (q : String) :
    q ∈ folderPathsList (l.foldl (fun ch a => insertAsset a (splitParts a.folder) "" 0 ch) ch) ↔
      q ∈ folderPathsList ch ∨ ∃ a ∈ l, q ∈ ancChain "" (splitParts a.folder) := by
  induction l generalizing ch with
  | nil => simp
  | cons a l ih =>
    simp only [List.foldl_cons]
    rw [ih _ (wfList_insertAsset _ _ _ _ _ h)]
    rw [mem_folderPathsList_insertAsset a _ _ _ _ h q]
    simp only [List.mem_cons]
    constructor
    · rintro ((h1 | h1) | ⟨b, hb, h2⟩)
      · exact Or.inl h1
      · exact Or.inr ⟨a, Or.inl rfl, h1⟩
      · exact Or.inr ⟨b, Or.inr hb, h2⟩
    · rintro (h1 | ⟨b, rfl | hb, h2⟩)
      · exact Or.inl (Or.inl h1)
      · exact Or.inl (Or.inr h2)
      · exact Or.inr ⟨b, hb, h2⟩

/-- Which folder paths a built tree has, as a function of the input seen
as an unordered collection. -/
theorem mem_treeFolderPaths_buildFolderTree (assets : List Asset) (q : String) :
    q ∈ treeFolderPaths (buildFolderTree assets) ↔
      ∃ a ∈ assets, q ∈ ancChain "" (splitParts a.folder) := by
  simp only [treeFolderPaths, buildFolderTree, buildFolderTreeRun, jsSortInPlace,
    TreeNode.children]
  rw [mem_folderPathsList_foldl _ [] rfl q]
  simp only [folderPathsList, List.not_mem_nil, false_or]
  constructor
  · rintro ⟨a, ha, h⟩
    exact ⟨a, (List.mergeSort_perm assets _).mem_iff.mp ha, h⟩
  · rintro ⟨a, ha, h⟩
    exact ⟨a, (List.mergeSort_perm assets _).mem_iff.mpr ha, h⟩

/-- **C7** — the shape of the built tree does not depend on the order of
the input list: for any permutation of the input, the built trees have
the same folder paths (hence the same folder nesting, a folder's nesting
chain being determined by its path string) and the same multiset of item
entries — each asset sits at the same node path under the same ancestor
folder chain; only child-array ordering may differ. -/
theorem buildFolderTree_perm_invariant (l1 l2 : List Asset) (h : l1.Perm l2) :
    (∀ q : String, q ∈ treeFolderPaths (buildFolderTree l1) ↔
        q ∈ treeFolderPaths (buildFolderTree l2)) ∧
      (treeItemEntries (buildFolderTree l1) : Multiset ItemEntry) =
        (treeItemEntries (buildFolderTree l2) : Multiset ItemEntry) := by
  constructor
  · intro q
    rw [mem_treeFolderPaths_buildFolderTree, mem_treeFolderPaths_buildFolderTree]
    constructor
    · rintro ⟨a, ha, hq⟩
      exact ⟨a, h.mem_iff.mp ha, hq⟩
    · rintro ⟨a, ha, hq⟩
      exact ⟨a, h.mem_iff.mpr ha, hq⟩
  · rw [treeItemEntries_buildFolderTree, treeItemEntries_buildFolderTree,
      Multiset.coe_eq_coe]
    exact h.map entryOf

/-- A second concrete asset, at the project root (no folder). -/
def rootAsset : Asset :=
  { id := "a-3", project_id := "p-1", name := "root.txt", file_path := "root.txt",
    folder := none, status := .received, assigned_to := some "dev@example.com",
    received_at := some "2024-01-01", implemented_at := none, revision_count := 1,
    notes := none, created_at := "", updated_at := 5 }

/-- **C7, witness** — instantiating the order-independence theorem at the
two-element list `[demoAsset, rootAsset]` and its reversal. -/
theorem buildFolderTree_perm_invariant_witness :
    ([demoAsset, rootAsset].Perm [rootAsset, demoAsset]) ∧
      ((∀ q : String, q ∈ treeFolderPaths (buildFolderTree [demoAsset, rootAsset]) ↔
          q ∈ treeFolderPaths (buildFolderTree [rootAsset, demoAsset])) ∧
        (treeItemEntries (buildFolderTree [demoAsset, rootAsset]) : Multiset ItemEntry) =
          (treeItemEntries (buildFolderTree [rootAsset, demoAsset]) : Multiset ItemEntry)) := by
  have hp : [demoAsset, rootAsset].Perm [rootAsset, demoAsset] := List.Perm.swap _ _ []
  exact ⟨hp, buildFolderTree_perm_invariant _ _ hp⟩

/-! ### JavaScript string primitives used by the pipeline and the guard -/

/-- The whitespace characters JavaScript `String.prototype.trim` strips
(the ASCII members of the TrimWhiteSpace set, which are the only ones the
source's inputs can contain). -/
def isJsWhitespace (c : Char) : Bool :=
  c = ' ' || c = '\t' || c = '\n' || c = '\r'

/-- JavaScript `s.trim()`: strip whitespace from both ends. -/
def jsTrim (s : String) : String :=
  String.mk (((s.data.dropWhile isJsWhitespace).reverse.dropWhile isJsWhitespace).reverse)

/-- ASCII lowercasing of one character, as JavaScript `toLowerCase` acts
on the source's ASCII identifiers. -/
def jsCharLower (c : Char) : Char :=
  if 'A' ≤ c ∧ c ≤ 'Z' then Char.ofNat (c.toNat + 32) else c

/-- JavaScript `s.toLowerCase()`. -/
def jsToLower (s : String) : String := String.mk (s.data.map jsCharLower)

/-- Substring occurrence on char lists. -/
def containsSub : List Char → List Char → Bool
  | [], needle => needle.isEmpty
  | c :: t, needle => needle.isPrefixOf (c :: t) || containsSub t needle

/-- JavaScript `hay.includes(needle)`. -/
def jsIncludes (hay needle : String) : Bool := containsSub hay.data needle.data

/-! ### The derived-list pipeline of `AssetTable.tsx` (`processedAssets`) -/

/-- The `SortOption` union of the shared types file. -/
inductive SortOption where
  | folder
  | date
  | status
  | cycles
deriving DecidableEq, Repr

/-- The search predicate of `processedAssets`: case-insensitive substring
match of the search term against `name`, `file_path` and (when present)
`assigned_to`. -/
def searchPred (searchTerm : String) (a : Asset) : Bool :=
  jsIncludes (jsToLower a.name) (jsToLower searchTerm) ||
    jsIncludes (jsToLower a.file_path) (jsToLower searchTerm) ||
    (match a.assigned_to with
     | some s => jsIncludes (jsToLower s) (jsToLower searchTerm)
     | none => false)

/-- The "My Tasks" predicate:
`asset.assigned_to?.toLowerCase() === userEmail.toLowerCase()` (an absent
assignee never matches). -/
def mineMatch (userEmail : String) (a : Asset) : Bool :=
  match a.assigned_to with
  | some s => jsToLower s = jsToLower userEmail
  | none => false

/-- The "High Churn" predicate: `asset.revision_count > 2`. -/
def highChurnPred (a : Asset) : Bool := a.revision_count > 2

/-- The status-priority rank of the `"status"` sort:
rework (pending with revisions) 0, pending 1, received 2, implemented 3. -/
def statusPriority (a : Asset) : Nat :=
  if a.status = .pending ∧ a.revision_count > 0 then 0
  else if a.status = .pending then 1
  else if a.status = .received then 2
  else 3

/-- `localeCompare`, embedded as the three-valued comparison of the code
points (the traversal order it induces never affects a proved property). -/
def strCompareInt (x y : String) : Int :=
  if x < y then -1 else if x = y then 0 else 1

/-- The comparator selected by `sortBy` in `processedAssets`. -/
def sortComparator : SortOption → Asset → Asset → Int
  | .folder, a, b => strCompareInt (a.folder.getD "") (b.folder.getD "")
  | .date, a, b => b.updated_at - a.updated_at
  | .status, a, b => (statusPriority a : Int) - (statusPriority b : Int)
  | .cycles, a, b => (b.revision_count : Int) - (a.revision_count : Int)

/-- Result of the `processedAssets` pipeline, together with the final
contents of the caller's `assets` array: the source builds new arrays with
`filter` and sorts a spread copy (`[...filtered].sort`), so the input
array is never the receiver of an in-place operation. -/
structure DeriveResult where
  output : List Asset
  assetsAfter : List Asset
deriving DecidableEq, Repr

/-- The `processedAssets` memo of `AssetTable.tsx`: search, optional
"My Tasks" filter (only when the toggle is on and `userEmail` is truthy,
i.e. non-empty), optional "High Churn" filter, then sort of a copy. -/
def processedAssets (assets : List Asset) (searchTerm : String)
    (showOnlyMyTasks showHighChurn : Bool) (sortBy : SortOption)
    (userEmail : String) : DeriveResult :=
  let filtered1 := assets.filter (searchPred searchTerm)
  let filtered2 :=
    if showOnlyMyTasks = true ∧ userEmail ≠ "" then filtered1.filter (mineMatch userEmail)
    else filtered1
  let filtered3 :=
    if showHighChurn = true then filtered2.filter highChurnPred else filtered2
  let copy := filtered3
  let (sorted, _copyAfter) :=
    jsSortInPlace (fun a b => sortComparator sortBy a b ≤ 0) copy
  ⟨sorted, assets⟩

/-! ### Status ranking and the backward-transition guard -/

/-- The `statusOrder` ranking of `AssetRow.tsx`:
`{ pending: 0, received: 1, implemented: 2 }`. -/
def statusOrder : Status → Nat
  | .pending => 0
  | .received => 1
  | .implemented => 2

/-- `isBackwardTransition` of `AssetRow.tsx`:
`statusOrder[newStatus] < statusOrder[oldStatus]`. -/
def isBackwardTransition (oldStatus newStatus : Status) : Bool :=
  statusOrder newStatus < statusOrder oldStatus

/-- The enumerated backward-transition check of the Dashboard's
`handleStatusUpdate`: implemented→received, implemented→pending, or
received→pending. -/
def dashboardIsBackwardTransition (cur new : Status) : Bool :=
  (cur = Status.implemented && (new = Status.received || new = Status.pending)) ||
    (cur = Status.received && new = Status.pending)

/-- A partial update object sent to the store
(`supabase.from("assets").update(...)`): `none` fields are absent from
the patch.  `notes` is doubly optional: present-and-null clears the
column. -/
structure AssetPatch where
  status : Option Status := none
  notes : Option (Option String) := none
  received_at : Option String := none
  implemented_at : Option String := none
  revision_count : Option Nat := none
deriving DecidableEq, Repr

/-- A command the guard or the Dashboard hands to its collaborators:
a store mutation request, a query-cache invalidation, or the
`onStatusUpdate` callback to the parent. -/
inductive StoreCommand where
  | updateAsset (id : String) (patch : AssetPatch)
  | invalidateHistory (id : String)
  | notifyStatusUpdate (id : String) (newStatus : Status)
deriving DecidableEq, Repr

/-- The store-mutation requests among a command list, in order. -/
def applyUpdates : List StoreCommand → List (String × AssetPatch)
  | [] => []
  | StoreCommand.updateAsset i p :: rest => (i, p) :: applyUpdates rest
  | StoreCommand.invalidateHistory _ :: rest => applyUpdates rest
  | StoreCommand.notifyStatusUpdate _ _ :: rest => applyUpdates rest

/-- The per-request guard state of `AssetRow.tsx`: the rework modal's
open flag and the pending backward target status.  `Idle` is
`⟨false, none⟩`; `AwaitingJustification` is `⟨true, some ps⟩`. -/
structure GuardState where
  reworkModalOpen : Bool
  pendingStatus : Option Status
deriving DecidableEq, Repr

/-- The `Idle` guard state. -/
def guardIdle : GuardState := ⟨false, none⟩

/-- The `AwaitingJustification` guard state for pending target `ps`. -/
def guardAwaiting (ps : Status) : GuardState := ⟨true, some ps⟩

/-- `handleStatusChange` of `AssetRow.tsx`: a backward request opens the
rework modal and issues nothing; a forward request notifies the parent
(`onStatusUpdate`) and invalidates the history cache. -/
def handleStatusChange (st : GuardState) (asset : Asset) (newStatus : Status) :
    GuardState × List StoreCommand :=
  if isBackwardTransition asset.status newStatus = true then
    ({ reworkModalOpen := true, pendingStatus := some newStatus }, [])
  else
    (st, [StoreCommand.notifyStatusUpdate asset.id newStatus,
          StoreCommand.invalidateHistory asset.id])

/-- `handleReworkSubmit` of `AssetRow.tsx` on the store-accepted path
(`if (!error)`): one update of status and notes, a history-cache
invalidation, closing of the modal, and the `onStatusUpdate` callback.
Nothing here reads or writes `revision_count`. -/
def handleReworkSubmit (st : GuardState) (asset : Asset) (reason : String) :
    GuardState × List StoreCommand :=
  match st.pendingStatus with
  | none => (st, [])
  | some ps =>
      (guardIdle,
       [StoreCommand.updateAsset asset.id { status := some ps, notes := some (some reason) },
        StoreCommand.invalidateHistory asset.id,
        StoreCommand.notifyStatusUpdate asset.id ps])

/-- `handleSubmit` of `ReworkModal.tsx`: a justification whose trimmed
length is under 10 characters is rejected before anything happens;
otherwise the trimmed reason is submitted via `handleReworkSubmit`. -/
def reworkModalSubmit (st : GuardState) (asset : Asset) (reason : String) :
    GuardState × List StoreCommand :=
  if (jsTrim reason).length < 10 then (st, [])
  else handleReworkSubmit st asset (jsTrim reason)

/-- `handleStatusUpdate` of the Dashboard page: build the update patch
(status, conditional timestamps, and — on an enumerated backward
transition — the incremented `revision_count`) for the found asset and
send one store update. -/
def handleStatusUpdate (assets : List Asset) (assetId : String) (newStatus : Status)
    (now : String) : List StoreCommand :=
  match assets.find? (fun a => a.id = assetId) with
  | none => []
  | some currentAsset =>
    let updates1 : AssetPatch := { status := some newStatus }
    let updates2 :=
      if newStatus = Status.received then { updates1 with received_at := some now }
      else if newStatus = Status.implemented then { updates1 with implemented_at := some now }
      else updates1
    let updates3 :=
      if dashboardIsBackwardTransition currentAsset.status newStatus = true then
        { updates2 with revision_count := some (currentAsset.revision_count + 1) }
      else updates2
    [StoreCommand.updateAsset assetId updates3]

/-! ### C2: backward-transition classification -/

/-- **C2** — with the ranking Pending=0, Received=1, Implemented=2, the
classifier of `AssetRow.tsx` returns true exactly when
`rank(to) < rank(from)` (on all 9 pairs, the three named instances
included), and the Dashboard's enumerated check agrees with it on all 9
pairs. -/
theorem isBackwardTransition_spec :
    (∀ f t : Status, isBackwardTransition f t = true ↔ statusOrder t < statusOrder f) ∧
      isBackwardTransition Status.implemented Status.pending = true ∧
      isBackwardTransition Status.pending Status.received = false ∧
      isBackwardTransition Status.received Status.received = false ∧
      ∀ f t : Status, dashboardIsBackwardTransition f t = isBackwardTransition f t := by
  refine ⟨?_, by decide, by decide, by decide, ?_⟩
  · intro f t
    simp [isBackwardTransition]
  · intro f t
    cases f <;> cases t <;> decide

/-! ### C3: the justification gate -/

/-- **C3** — from `AwaitingJustification`, a submit whose trimmed
justification is shorter than 10 characters leaves the guard state
unchanged and emits nothing; a submit with trimmed length at least 10
returns the guard to `Idle` and emits exactly one store update, carrying
the pending status and the justification as the note. -/
theorem reworkModalSubmit_justification_gate (ps : Status) (asset : Asset)
    (reason : String) :
    ((jsTrim reason).length < 10 →
        reworkModalSubmit (guardAwaiting ps) asset reason = (guardAwaiting ps, [])) ∧
      (10 ≤ (jsTrim reason).length →
        (reworkModalSubmit (guardAwaiting ps) asset reason).1 = guardIdle ∧
          applyUpdates (reworkModalSubmit (guardAwaiting ps) asset reason).2 =
            [(asset.id, { status := some ps, notes := some (some (jsTrim reason)) })]) := by
  constructor
  · intro h
    simp [reworkModalSubmit, h]
  · intro h
    have hn : ¬ (jsTrim reason).length < 10 := by omega
    simp [reworkModalSubmit, hn, handleReworkSubmit, guardAwaiting, guardIdle, applyUpdates]

/-- **C3, witness** — the gate at the spec's own examples: `"short"`
(5 chars) is rejected with the state unchanged, `"valid reason text"`
(17 chars) reaches `Idle` with exactly one update carrying the note. -/
theorem reworkModalSubmit_justification_gate_witness :
    ((jsTrim "short").length < 10 ∧
        reworkModalSubmit (guardAwaiting Status.pending) rootAsset "short" =
          (guardAwaiting Status.pending, [])) ∧
      (10 ≤ (jsTrim "valid reason text").length ∧
        (reworkModalSubmit (guardAwaiting Status.pending) rootAsset "valid reason text").1 =
            guardIdle ∧
          applyUpdates
              (reworkModalSubmit (guardAwaiting Status.pending) rootAsset
                "valid reason text").2 =
            [(rootAsset.id,
              { status := some Status.pending,
                notes := some (some (jsTrim "valid reason text")) })]) :=
  ⟨⟨by decide,
    (reworkModalSubmit_justification_gate Status.pending rootAsset "short").1 (by decide)⟩,
   by decide,
   (reworkModalSubmit_justification_gate Status.pending rootAsset "valid reason text").2
     (by decide)⟩

/-! ### C4: the guard's frame -/

/-- **C4** — the update emitted by a justified backward submit patches
only `status` and `notes` (timestamps and `revision_count` absent); the
guard never reads `revision_count` (its behaviour is invariant under any
change to that field) and none of its emitted patches ever contains
`revision_count`; the increment is performed outside the guard: the
Dashboard's `handleStatusUpdate` — the collaborator issuing the follow-up
store mutation — is what adds `revision_count := current + 1` on a
backward transition. -/
theorem rework_guard_frame (st : GuardState) (asset : Asset) (reason : String)
    (ps : Status) (n : Nat) (assets : List Asset) (assetId now : String) (cur : Asset)
    (newStatus : Status) :
    (10 ≤ (jsTrim reason).length →
        applyUpdates (reworkModalSubmit (guardAwaiting ps) asset reason).2 =
          [(asset.id,
            { status := some ps, notes := some (some (jsTrim reason)), received_at := none,
              implemented_at := none, revision_count := none })]) ∧
      reworkModalSubmit st { asset with revision_count := n } reason =
          reworkModalSubmit st asset reason ∧
      (∀ pr ∈ applyUpdates (reworkModalSubmit st asset reason).2,
          pr.2.revision_count = none) ∧
      (assets.find? (fun a => a.id = assetId) = some cur →
        dashboardIsBackwardTransition cur.status newStatus = true →
        handleStatusUpdate assets assetId newStatus now =
          [StoreCommand.updateAsset assetId
            { status := some newStatus,
              notes := none,
              received_at := if newStatus = Status.received then some now else none,
              implemented_at := if newStatus = Status.implemented then some now else none,
              revision_count := some (cur.revision_count + 1) }]) := by
  refine ⟨?_, rfl, ?_, ?_⟩
  · intro h
    have hn : ¬ (jsTrim reason).length < 10 := by omega
    simp [reworkModalSubmit, hn, handleReworkSubmit, guardAwaiting, applyUpdates]
  · intro pr hpr
    by_cases h : (jsTrim reason).length < 10
    · simp [reworkModalSubmit, h, applyUpdates] at hpr
    · simp only [reworkModalSubmit, if_neg h, handleReworkSubmit] at hpr
      match hst : st.pendingStatus with
      | none => rw [hst] at hpr; simp [applyUpdates] at hpr
      | some q =>
        rw [hst] at hpr
        simp only [applyUpdates, List.mem_singleton] at hpr
        subst hpr
        rfl
  · intro hfind hback
    cases newStatus with
    | pending => simp [handleStatusUpdate, hfind, hback]
    | received => simp [handleStatusUpdate, hfind, hback]
    | implemented => simp [handleStatusUpdate, hfind, hback]

/-! ### C8: the "mine" filter fails open -/

theorem list_filter_comm (p q : Asset → Bool) (l : List Asset) :
    (l.filter p).filter q = (l.filter q).filter p := by
  induction l with
  | nil => rfl
  | cons a t ih =>
    by_cases hp : p a <;> by_cases hq : q a <;> simp [List.filter_cons, hp, hq, ih]

/-- **C8** — with the "My Tasks" toggle on but an unknown (empty) user
identity, the pipeline applies no assignee filtering at all: its result is
the very result of the toggle-off run.  With a known identity, it retains
exactly the items whose assignee matches the identity case-insensitively:
the toggle-on output is, as a multiset, the toggle-off output filtered by
`mineMatch`. -/
theorem processedAssets_mine_fail_open (assets : List Asset) (s : String)
    (churn : Bool) (sb : SortOption) (u : String) :
    (u = "" →
        processedAssets assets s true churn sb u =
          processedAssets assets s false churn sb u) ∧
      (u ≠ "" →
        ((processedAssets assets s true churn sb u).output : Multiset Asset) =
          Multiset.filter (fun a => mineMatch u a = true)
            ((processedAssets assets s false churn sb u).output : Multiset Asset)) := by
  constructor
  · intro hu
    subst hu
    simp [processedAssets]
  · intro hu
    have hout : ∀ (m c : Bool),
        (processedAssets assets s m c sb u).output =
          (if c = true then
            (if m = true ∧ u ≠ "" then
              (assets.filter (searchPred s)).filter (mineMatch u)
             else assets.filter (searchPred s)).filter highChurnPred
           else
            (if m = true ∧ u ≠ "" then
              (assets.filter (searchPred s)).filter (mineMatch u)
             else assets.filter (searchPred s))).mergeSort
            (fun a b => sortComparator sb a b ≤ 0) := fun m c => rfl
    rw [hout, hout]
    rw [if_pos (And.intro rfl hu)]
    have hfalse : ¬ ((false : Bool) = true ∧ u ≠ "") := by simp
    rw [if_neg hfalse]
    have hms : ∀ l : List Asset,
        ((l.mergeSort (fun a b => sortComparator sb a b ≤ 0) : List Asset) :
          Multiset Asset) = (l : Multiset Asset) := by
      intro l
      rw [Multiset.coe_eq_coe]
      exact List.mergeSort_perm l _
    rw [hms, hms, Multiset.filter_coe, Multiset.coe_eq_coe]
    have hdec : ∀ l : List Asset,
        l.filter (fun a => decide (mineMatch u a = true)) = l.filter (mineMatch u) := by
      intro l
      apply List.filter_congr
      intro a _
      simp
    rw [hdec]
    by_cases hc : churn = true
    · rw [if_pos hc, if_pos hc, list_filter_comm]
    · rw [if_neg hc, if_neg hc]

/-- **C8, witness** — the fail-open theorem at a singleton input: with the
toggle on and empty identity the run equals the toggle-off run, and with
the identity `dev@example.com` the toggle-on output is the filtered
toggle-off output. -/
theorem processedAssets_mine_fail_open_witness :
    (processedAssets [rootAsset] "" true false SortOption.folder "" =
        processedAssets [rootAsset] "" false false SortOption.folder "") ∧
      ((processedAssets [rootAsset] "" true false SortOption.folder
          "dev@example.com").output : Multiset Asset) =
        Multiset.filter (fun a => mineMatch "dev@example.com" a = true)
          ((processedAssets [rootAsset] "" false false SortOption.folder
            "dev@example.com").output : Multiset Asset) :=
  ⟨(processedAssets_mine_fail_open [rootAsset] "" false SortOption.folder "").1 rfl,
   (processedAssets_mine_fail_open [rootAsset] "" false SortOption.folder
     "dev@example.com").2 (by decide)⟩

/-! ### C9: neither the pipeline nor the tree build mutates its input -/

/-- **C9** — the final contents of the caller's `assets` array after a
pipeline run and after a tree build are the input itself (the only
in-place operation, the sort, targets a spread copy), and both outputs
only reference the input's own asset values: every pipeline-output
element and every tree-entry item is an element of the input list,
fields untouched. -/
theorem processedAssets_buildFolderTree_no_mutation (assets : List Asset) (s : String)
    (m c : Bool) (sb : SortOption) (u : String) :
    (processedAssets assets s m c sb u).assetsAfter = assets ∧
      (buildFolderTreeRun assets).2 = assets ∧
      (∀ a ∈ (processedAssets assets s m c sb u).output, a ∈ assets) ∧
      (∀ e ∈ treeItemEntries (buildFolderTree assets), e.item ∈ assets) := by
  refine ⟨rfl, rfl, ?_, ?_⟩
  · intro a ha
    simp only [processedAssets, jsSortInPlace] at ha
    rw [(List.mergeSort_perm _ _).mem_iff] at ha
    split_ifs at ha <;> simp only [List.mem_filter] at ha <;> tauto
  · intro e he
    obtain ⟨a, ha, rfl⟩ := mem_treeItemEntries_buildFolderTree assets e he
    simpa [entryOf] using ha

/-- **C9, witness** — the no-mutation theorem at the singleton input
`[rootAsset]`: the array's final contents are the input, and the one
output element and one tree item are the input asset itself. -/
theorem processedAssets_buildFolderTree_no_mutation_witness :
    (processedAssets [rootAsset] "" false false SortOption.folder "").assetsAfter =
        [rootAsset] ∧
      rootAsset ∈ (processedAssets [rootAsset] "" false false SortOption.folder "").output ∧
      rootAsset ∈ [rootAsset] := by
  have hs : searchPred "" rootAsset = true := by decide
  have hout : (processedAssets [rootAsset] "" false false SortOption.folder "").output =
      [rootAsset] := by
    simp [processedAssets, jsSortInPlace, List.filter, hs]
  refine ⟨rfl, ?_, ?_⟩
  · rw [hout]
    simp
  · refine (processedAssets_buildFolderTree_no_mutation [rootAsset] "" false false
      SortOption.folder "").2.2.1 rootAsset ?_
    rw [hout]
    simp

/-- A concrete implemented asset with no revisions yet, as in the spec's
end-to-end rework scenario. -/
def implAsset : Asset :=
  { id := "a-4", project_id := "p-1", name := "w.png", file_path := "w.png",
    folder := none, status := .implemented, assigned_to := none, received_at := none,
    implemented_at := some "2024-01-02", revision_count := 0, notes := none,
    created_at := "", updated_at := 9 }

/-- **C4, witness** — the frame theorem at the spec's scenario: status
Implemented, `revision_count = 0`, justified transition to Pending with
note `"client requested changes"`.  The guard's one update patches only
status and notes; the guard's behaviour ignores `revision_count`; the
Dashboard's follow-up update is what carries `revision_count := 1`. -/
theorem rework_guard_frame_witness :
    (10 ≤ (jsTrim "client requested changes").length ∧
        applyUpdates (reworkModalSubmit (guardAwaiting Status.pending) implAsset
            "client requested changes").2 =
          [(implAsset.id,
            { status := some Status.pending,
              notes := some (some (jsTrim "client requested changes")),
              received_at := none, implemented_at := none, revision_count := none })]) ∧
      reworkModalSubmit guardIdle { implAsset with revision_count := 7 }
          "client requested changes" =
        reworkModalSubmit guardIdle implAsset "client requested changes" ∧
      ([implAsset].find? (fun a => a.id = "a-4") = some implAsset ∧
        dashboardIsBackwardTransition implAsset.status Status.pending = true ∧
        handleStatusUpdate [implAsset] "a-4" Status.pending "2024-02-02" =
          [StoreCommand.updateAsset "a-4"
            { status := some Status.pending, notes := none, received_at := none,
              implemented_at := none, revision_count := some 1 }]) := by
  have hfind : [implAsset].find? (fun a => a.id = "a-4") = some implAsset := by decide
  have hback : dashboardIsBackwardTransition implAsset.status Status.pending = true := by
    decide
  have h := rework_guard_frame guardIdle implAsset "client requested changes" Status.pending
    7 [implAsset] "a-4" "2024-02-02" implAsset Status.pending
  refine ⟨⟨by decide, h.1 (by decide)⟩, h.2.1, hfind, hback, ?_⟩
  have h4 := h.2.2.2 hfind hback
  simpa using h4
